import Mathlib

/-!
Verification of the search-result pagination and match-formatting pipeline of
`bitbucket_tool.py` (class `BitbucketCodeSearch`).

Modelling conventions (shallow embedding):
* Python strings are modelled as `List Char` (`Str`); `chars` turns a Lean
  string literal into that representation.
* `str.split(sep)` for a non-empty separator is modelled by `pySplit`
  (leftmost, non-overlapping occurrences; trailing empty chunks preserved;
  splitting the empty string yields one empty chunk — exactly CPython's
  semantics).  `"x" in s` is modelled by `occursIn`.  `str.strip()` is
  modelled by `pyStrip` over the ASCII whitespace characters.
  `"sep".join(xs)` is modelled by `joinSep`.
* JSON dictionaries read with `dict.get(key, default)` are modelled as
  structures whose fields are `Option`-valued; `d.get(k, v)` becomes
  `field.getD v`.
* The remote service is modelled as a function `fetch : Nat → Response`
  giving the response of the network call for each page number, and the
  on-disk cache (library `diskcache`) as an association list with
  per-entry expiry timestamps.  Network effects are made observable by
  returning, besides the accumulated results, the list of pages processed
  by the loop and the list of pages actually fetched from the network.
* All definitions are structurally recursive, so every concrete run can be
  evaluated by `decide`.
-/

/-- Python strings, modelled as lists of characters. -/
abbrev Str := List Char

/-- Embed a Lean string literal as a `Str`. -/
def chars (s : String) : Str := s.data

/-- Worker for `pySplit`.  The fuel argument makes the recursion structural;
`pySplit` passes the length of the string, which is always sufficient since
every step consumes at least one character. -/
def pySplitGo (sep : Str) : Nat → Str → Str → List Str
  | _, [], acc => [acc.reverse]
  | 0, c :: rest, acc => [acc.reverse ++ c :: rest]
  | fuel+1, c :: rest, acc =>
    if sep.isPrefixOf (c :: rest)
    then acc.reverse :: pySplitGo sep fuel ((c :: rest).drop sep.length) []
    else pySplitGo sep fuel rest (c :: acc)

/-- Python `s.split(sep)` for a non-empty separator: split at the leftmost
non-overlapping occurrences of `sep`.  (Python raises on an empty separator;
that case never arises below and is given a harmless value.) -/
def pySplit (sep s : Str) : List Str :=
  if sep = [] then [s] else pySplitGo sep s.length s []

/-- Python `pat in s`: `pat` occurs as a contiguous subsequence of `s`. -/
def occursIn (pat : Str) : Str → Bool
  | [] => decide (pat = [])
  | c :: rest => pat.isPrefixOf (c :: rest) || occursIn pat rest

/-- Python `sep.join(xs)`. -/
def joinSep (sep : Str) : List Str → Str
  | [] => []
  | [x] => x
  | x :: y :: xs => x ++ sep ++ joinSep sep (y :: xs)

/-- Python whitespace characters stripped by `str.strip()` (ASCII part). -/
def isPySpace (c : Char) : Bool :=
  c = ' ' || c = '\t' || c = '\n' || c = '\r' || c = '\x0b' || c = '\x0c'

/-- Python `s.strip()`: remove leading and trailing whitespace. -/
def pyStrip (s : Str) : Str :=
  (((s.dropWhile isPySpace).reverse).dropWhile isPySpace).reverse

/-- Rendering of a Python `int` by `str()` / an f-string. -/
def intChars (i : Int) : Str :=
  if i < 0 then '-' :: Nat.toDigits 10 i.natAbs else Nat.toDigits 10 i.toNat

/-- Rendering of the `line` field inside the f-string
`"Line ...: ..."`: the code reads it with `line_info.get("line")` (no
default), so a missing field becomes Python `None`, which an f-string
renders as the text `None`. -/
def lineNumStr : Option Int → Str
  | some i => intChars i
  | none => chars "None"

/-- A `segments` entry: JSON object with fields `text` and `match`.
(`match` is a Lean keyword, hence the field name `matchFlag`.) -/
structure Segment where
  text : Option Str
  matchFlag : Option Bool
deriving DecidableEq, Repr

/-- A `lines` entry: JSON object with fields `line` and `segments`. -/
structure LineRecord where
  line : Option Int
  segments : Option (List Segment)
deriving DecidableEq, Repr

/-- A `content_matches` entry: JSON object with field `lines`. -/
structure MatchBlock where
  lines : Option (List LineRecord)
deriving DecidableEq, Repr

/-- The `links.self` JSON object with field `href`. -/
structure SelfLink where
  href : Option Str
deriving DecidableEq, Repr

/-- The `links` JSON object with field `self`. -/
structure Links where
  self : Option SelfLink
deriving DecidableEq, Repr

/-- The `file` JSON object with fields `path` and `links`. -/
structure FileInfo where
  path : Option Str
  links : Option Links
deriving DecidableEq, Repr

/-- One entry of a page's `values` array. -/
structure SearchResult where
  type : Option Str
  file : Option FileInfo
  content_matches : Option (List MatchBlock)
deriving DecidableEq, Repr

/-- A page response of the `/search/code` endpoint; the code only reads
`values` (entries) and `next` (presence signals a further page). -/
structure Response where
  values : Option (List SearchResult)
  next : Option Str
deriving DecidableEq, Repr

/-- Empty JSON object fallback for `result.get("file", dict())`. -/
def FileInfo.emptyObj : FileInfo := ⟨none, none⟩

/-- Empty JSON object fallback for `file_info.get("links", dict())`. -/
def Links.emptyObj : Links := ⟨none⟩

/-- Empty JSON object fallback for `links.get("self", dict())`. -/
def SelfLink.emptyObj : SelfLink := ⟨none⟩

/-- The literal marker used by the repository-name extraction. -/
def MARKER : Str := chars "/repositories/"

/-- Repository-name extraction performed inline in both
`get_file_names_with_matches` (lines 151-155) and `get_matches`
(lines 185-189) of `bitbucket_tool.py`:

    repo_name = ""
    if "/repositories/" in self_link:
        parts = self_link.split("/repositories/")[1].split("/")
        if len(parts) >= 2:
            repo_name = parts[1]

Note that `split("/repositories/")[1]` is the portion of the URL strictly
between the first and the second occurrence of the marker (or the end of
the string when the marker occurs only once).  When the marker is present,
the split has at least two chunks, so matching on two chunks is exactly the
`in` test plus the `[1]` index. -/
def extractRepoName (self_link : Str) : Str :=
  match pySplit MARKER self_link with
  | _ :: after :: _ =>
    match pySplit (chars "/") after with
    | _ :: repo :: _ => repo
    | _ => []
  | _ => []

/-- Modelled from the spec: section 4.2 `resolveRepoName` — "locate the
literal marker substring `/repositories/` in the URL; split the remainder
by `/`; if at least two segments remain, the second segment is the
repository name; otherwise return empty string."  The remainder after the
first occurrence of the marker is the join, by the marker, of all split
chunks except the first. -/
def resolveRepoName (url : Str) : Str :=
  match pySplit MARKER url with
  | _ :: c :: cs =>
    match pySplit (chars "/") (joinSep MARKER (c :: cs)) with
    | _ :: repo :: _ => repo
    | _ => []
  | _ => []

/-- Text of one segment: `segment.get("text", "")`. -/
def segText (s : Segment) : Str := s.text.getD []

/-- Rendering of one segment inside `_format_content_matches`
(lines 302-308): wrap in `**` markers when `highlight and is_match`. -/
def formatSegment (highlight : Bool) (s : Segment) : Str :=
  if highlight && s.matchFlag.getD false
  then chars "**" ++ segText s ++ chars "**"
  else segText s

/-- The `line_text` accumulation loop of `_format_content_matches`
(lines 300-308): start from the empty string and append each rendered
segment in order. -/
def renderLineText (highlight : Bool) (segs : List Segment) : Str :=
  segs.foldl (fun acc s => acc ++ formatSegment highlight s) []

/-- Processing of one `lines` record (lines 295-311): skip the record when
its segment list is empty (Python list truthiness) or when the rendered
text strips to the empty string (Python string truthiness); otherwise emit
one formatted line. -/
def lineEntry (highlight : Bool) (li : LineRecord) : List Str :=
  let segs := li.segments.getD []
  if segs ≠ [] then
    let line_text := renderLineText highlight segs
    if pyStrip line_text ≠ [] then
      [chars "Line " ++ lineNumStr li.line ++ chars ": " ++ line_text]
    else []
  else []

/-- The flat list `formatted_lines` built by `_format_content_matches`
(lines 290-311): blocks in order, lines within each block in order. -/
def formattedLines (highlight : Bool) (content_matches : List MatchBlock) : List Str :=
  content_matches.flatMap (fun m => (m.lines.getD []).flatMap (lineEntry highlight))

/-- `BitbucketCodeSearch._format_content_matches` (lines 280-313):
format the content matches and join with newlines. -/
def format_content_matches (content_matches : List MatchBlock) (highlight : Bool) : Str :=
  joinSep (chars "\n") (formattedLines highlight content_matches)

/-- The `file.path` read of a result: `result.get("file", dict()).get("path", "")`. -/
def pathOf (result : SearchResult) : Str :=
  (result.file.getD FileInfo.emptyObj).path.getD []

/-- The `file.links.self.href` read of a result (lines 146-147 / 183-184). -/
def hrefOf (result : SearchResult) : Str :=
  ((((result.file.getD FileInfo.emptyObj).links.getD Links.emptyObj).self.getD
    SelfLink.emptyObj).href.getD [])

/-- The repository-qualified file name built at line 191 of `get_matches`
(and by the equivalent if/else at lines 157-160 of
`get_file_names_with_matches`). -/
def fileNameOf (result : SearchResult) : Str :=
  let repo_name := extractRepoName (hrefOf result)
  if repo_name ≠ [] then repo_name ++ chars "/" ++ pathOf result else pathOf result

/-- Contribution of one result to the `file_names` list of
`get_file_names_with_matches` (lines 139-160): results of other types are
skipped, results with an empty or absent path are skipped, otherwise one
(possibly repository-qualified) name is appended. -/
def fileNameEntryOf (result : SearchResult) : List Str :=
  if result.type = some (chars "code_search_result") then
    if pathOf result ≠ [] then [fileNameOf result] else []
  else []

/-- The `file_names` list of `get_file_names_with_matches`. -/
def fileNameEntries (results : List SearchResult) : List Str :=
  results.flatMap fileNameEntryOf

/-- Contribution of one result to the list built by `get_matches`
(lines 177-197): results of other types are skipped; otherwise the pair
(file name, formatted matches) is appended unless the formatted match text
is empty (Python string truthiness at line 196). -/
def matchEntryOf (result : SearchResult) (highlight : Bool) : List (Str × Str) :=
  if result.type = some (chars "code_search_result") then
    let formatted_match := format_content_matches (result.content_matches.getD []) highlight
    if formatted_match ≠ [] then [(fileNameOf result, formatted_match)] else []
  else []

/-- The list returned by `get_matches`, as a function of the fetched results. -/
def matchEntries (results : List SearchResult) (highlight : Bool) : List (Str × Str) :=
  results.flatMap (fun r => matchEntryOf r highlight)

/-- Cache expiration time in seconds (`EXPIRATION_TIME = 3600`). -/
def EXPIRATION_TIME : Nat := 3600

/-- Maximum number of pages to fetch (`MAX_PAGE = 100`). -/
def MAX_PAGE : Nat := 100

/-- Modelled from the spec: the process-external key/value store of
section 2 ("Result Cache — keyed by (page number, query string), with a
time-based expiration"), realised in the code by the `diskcache` library.
The Python key is the string `search_code_page_` + page + `_` + query;
since decimal page numbers contain no underscore, that formatting is
injective in the (page, query) pair, and the model uses the pair itself as
the key.  An entry records the stored response and its expiry instant. -/
abbrev CacheState := List ((Nat × Str) × Response × Nat)

/-- Modelled from the spec: `cache.get(key)` — the most recently stored
entry for the key, or nothing when no entry exists or the entry has
expired (`diskcache` treats an entry as live until its expiry instant). -/
def cacheGet (cache : CacheState) (now : Nat) (key : Nat × Str) : Option Response :=
  match cache with
  | [] => none
  | (k, r, expiry) :: rest =>
    if k = key then (if now ≤ expiry then some r else none)
    else cacheGet rest now key

/-- Modelled from the spec: `cache.set(key, response, expire=EXPIRATION_TIME)`
— store the response under the key, expiring `EXPIRATION_TIME` seconds from
now.  Prepending shadows any older entry for the same key, which is how
`diskcache` replacement behaves under `cacheGet`. -/
def cacheSet (cache : CacheState) (now : Nat) (key : Nat × Str) (r : Response) : CacheState :=
  (key, r, now + EXPIRATION_TIME) :: cache

/-- Observable outcome of one `_get_all_search_results` run: the
accumulated `all_results` list, the pages processed by the loop in order,
the pages for which a network request was issued (cache misses) in order,
and the final cache state. -/
structure RunResult where
  results : List SearchResult
  processed : List Nat
  fetched : List Nat
  cache : CacheState
deriving DecidableEq, Repr

/-- The `while True` loop of `_get_all_search_results` (lines 91-124).

For each page: consult the cache under the (page, query) key; on a miss
perform the network call `fetch page` and store the response; extend
`all_results` with the response's `values` array when present (line 113-114
— note: every entry, with no filter on its `type`); stop when the response
has no `next` (line 116-117); otherwise increment the page counter and stop
when it exceeds `max_page` (lines 119-122).

The Python loop increments `page` and breaks once `page > max_page`, so
from page `p` it performs at most `max_page - p` further iterations; the
structural argument `remaining` counts exactly those, i.e. the loop is
entered with `remaining = max_page - page`.  The body always runs at least
once, because the cap is only tested after the first iteration.

The `cache.get`/`is None` branching of lines 101-111 is rendered with
`Option.getD` and `Option.isSome`: on a hit the cached response is used
and nothing is stored; on a miss the network response is used and stored.
Line 113-114 (`if "values" in response: all_results.extend(...)`) extends
the accumulator by the `values` array when present and by nothing — the
empty list — otherwise, which is `Option.getD []`. -/
def searchLoop (fetch : Nat → Response) (now : Nat) (q : Str) :
    Nat → Nat → List SearchResult → List Nat → List Nat → CacheState → RunResult
  | page, remaining, acc, proc, fetr, cache =>
    let hit := cacheGet cache now (page, q)
    let response := hit.getD (fetch page)
    let cache2 := if hit.isSome then cache else cacheSet cache now (page, q) (fetch page)
    let fetr2 := if hit.isSome then fetr else fetr ++ [page]
    let acc2 := acc ++ response.values.getD []
    let proc2 := proc ++ [page]
    if response.next = none then ⟨acc2, proc2, fetr2, cache2⟩
    else
      match remaining with
      | 0 => ⟨acc2, proc2, fetr2, cache2⟩
      | r + 1 => searchLoop fetch now q (page + 1) r acc2 proc2 fetr2 cache2

/-- `BitbucketCodeSearch._get_all_search_results(search_query, max_page)`:
run the pagination loop from page 1 against the given service behaviour
`fetch`, cache state, and clock instant. -/
def get_all_search_results (fetch : Nat → Response) (cache : CacheState)
    (now : Nat) (q : Str) (max_page : Nat) : RunResult :=
  searchLoop fetch now q 1 (max_page - 1) [] [] [] cache

/-- `BitbucketCodeSearch.get_file_names_with_matches` (lines 126-162):
fetch all results, keep the (possibly repository-qualified) path of each
`code_search_result` with a non-empty path, and join with newlines. -/
def get_file_names_with_matches (fetch : Nat → Response) (cache : CacheState)
    (now : Nat) (q : Str) (max_page : Nat) : Str :=
  joinSep (chars "\n") (fileNameEntries (get_all_search_results fetch cache now q max_page).results)

/-- `BitbucketCodeSearch.get_matches` (lines 164-199): fetch all results
and return the (file name, formatted matches) pairs. -/
def get_matches (fetch : Nat → Response) (cache : CacheState) (now : Nat)
    (q : Str) (max_page : Nat) (highlight : Bool) : List (Str × Str) :=
  matchEntries (get_all_search_results fetch cache now q max_page).results highlight

/-- `BitbucketCodeSearch.get_raw_matches` (lines 201-278) up to JSON
serialisation: the function returns `json.dumps` of exactly the list
accumulated by `_get_all_search_results`; the (injective) textual JSON
encoding itself is outside the model, so the model returns that list. -/
def get_raw_matches (fetch : Nat → Response) (cache : CacheState) (now : Nat)
    (q : Str) (max_page : Nat) : List SearchResult :=
  (get_all_search_results fetch cache now q max_page).results

/-- The response the loop uses for a page: the live cached response when
one exists, the network response otherwise. -/
def respOf (fetch : Nat → Response) (cache : CacheState) (now : Nat) (q : Str)
    (page : Nat) : Response :=
  match cacheGet cache now (page, q) with
  | some r => r
  | none => fetch page

/-- The sequence of pages the loop processes when started at `page` with
`remaining` further iterations allowed, given the per-page responses
`resp`: the current page, then — unless its response has no `next` or the
budget is exhausted — the pages of the continued run. -/
def pagesRun (resp : Nat → Response) : Nat → Nat → List Nat
  | page, 0 => [page]
  | page, remaining + 1 =>
    if (resp page).next = none then [page]
    else page :: pagesRun resp (page + 1) remaining

/-- The retention test of `_format_content_matches` for one line record:
the segment list is non-empty and the rendered text does not strip to the
empty string (the two Python truthiness guards at lines 299 and 310). -/
def keepLine (highlight : Bool) (li : LineRecord) : Bool :=
  decide (li.segments.getD [] ≠ []) &&
    decide (pyStrip (renderLineText highlight (li.segments.getD [])) ≠ [])

/-- The rendering of one retained line record:
`Line ` + line number + `: ` + concatenated segment texts. -/
def renderLine (highlight : Bool) (li : LineRecord) : Str :=
  chars "Line " ++ lineNumStr li.line ++ chars ": " ++
    renderLineText highlight (li.segments.getD [])

/-- All line records of a `content_matches` value, block order first, line
order within each block second. -/
def allLineRecords (content_matches : List MatchBlock) : List LineRecord :=
  content_matches.flatMap (fun m => m.lines.getD [])

/-- A segment with its missing fields replaced by the defaults the code
supplies (`text` by the empty string, `match` by false). -/
def Segment.filled (s : Segment) : Segment :=
  ⟨some (segText s), some (s.matchFlag.getD false)⟩

/-- A line record with missing `segments` replaced by the empty list and
the defaults pushed into each segment (the `line` field has no default in
the code and is left as read). -/
def LineRecord.filled (li : LineRecord) : LineRecord :=
  ⟨li.line, some ((li.segments.getD []).map Segment.filled)⟩

/-- A match block with missing `lines` replaced by the empty list and the
defaults pushed inwards. -/
def MatchBlock.filled (m : MatchBlock) : MatchBlock :=
  ⟨some ((m.lines.getD []).map LineRecord.filled)⟩

/-- The `links.self` object with a missing `href` replaced by the empty
string. -/
def SelfLink.filled (s : SelfLink) : SelfLink := ⟨some (s.href.getD [])⟩

/-- The `links` object with a missing `self` replaced by the empty object
and the defaults pushed inwards. -/
def Links.filled (l : Links) : Links :=
  ⟨some (SelfLink.filled (l.self.getD SelfLink.emptyObj))⟩

/-- The `file` object with missing `path` and `links` replaced by their
defaults and the defaults pushed inwards. -/
def FileInfo.filled (f : FileInfo) : FileInfo :=
  ⟨some (f.path.getD []), some (Links.filled (f.links.getD Links.emptyObj))⟩

/-- A search result with every field the code reads through
`dict.get(key, default)` replaced by its explicit default when missing
(`type` is read without a default and left as is). -/
def SearchResult.filled (r : SearchResult) : SearchResult :=
  ⟨r.type, some (FileInfo.filled (r.file.getD FileInfo.emptyObj)),
    some ((r.content_matches.getD []).map MatchBlock.filled)⟩

/-- The result of the worked example of the spec (section 8): a
`code_search_result` whose `file.links.self.href` points into repository
`demo` of workspace `my-workspace` and whose `file.path` is `src/foo.py`. -/
def exampleResult : SearchResult :=
  ⟨some (chars "code_search_result"),
    some ⟨some (chars "src/foo.py"),
      some ⟨some ⟨some (chars "https://api.example.org/2.0/repositories/my-workspace/demo/src/abc123/src/foo.py")⟩⟩⟩,
    none⟩

/-- A result of a type other than `code_search_result` (such entries do
occur in `/search/code` responses pending service-side changes). -/
def otherTypeResult : SearchResult := ⟨some (chars "repository"), none, none⟩

/-- A service whose every page response announces a further page. -/
def alwaysNextFetch : Nat → Response := fun _ => ⟨some [], some (chars "next-url")⟩

/-- A service with exactly two pages: page 1 announces a next page,
page 2 does not. -/
def twoPageFetch : Nat → Response :=
  fun p => ⟨some [], if p = 1 then some (chars "next-url") else none⟩

/-- A `code_search_result` with an absent path. -/
def noPathResult : SearchResult := ⟨some (chars "code_search_result"), none, none⟩

/-- A `code_search_result` with a non-empty path and no content matches. -/
def pathOnlyResult : SearchResult :=
  ⟨some (chars "code_search_result"), some ⟨some (chars "a.py"), none⟩, none⟩

theorem foldl_append_flatten {α : Type} (f : α → Str) :
    ∀ (l : List α) (acc : Str),
      l.foldl (fun a s => a ++ f s) acc = acc ++ (l.map f).flatten := by
  intro l
  induction l with
  | nil => intro acc; simp
  | cons c t ih => intro acc; simp [ih]

/-- The `line_text` loop concatenates the rendered segments in order. -/
theorem renderLineText_eq (hl : Bool) (segs : List Segment) :
    renderLineText hl segs = (segs.map (formatSegment hl)).flatten := by
  simpa [renderLineText] using foldl_append_flatten (formatSegment hl) segs []

/-- One line record yields its rendering exactly when it passes the two
retention guards, and nothing otherwise. -/
theorem lineEntry_eq (hl : Bool) (li : LineRecord) :
    lineEntry hl li = if keepLine hl li then [renderLine hl li] else [] := by
  by_cases h1 : li.segments.getD [] = [] <;>
    by_cases h2 : pyStrip (renderLineText hl (li.segments.getD [])) = [] <;>
      simp [lineEntry, keepLine, renderLine, h1, h2]

theorem flatMap_ite_singleton {α β : Type} (p : α → Bool) (f : α → β) :
    ∀ l : List α, (l.flatMap fun x => if p x then [f x] else []) = (l.filter p).map f := by
  intro l
  induction l with
  | nil => rfl
  | cons a t ih => by_cases h : p a <;> simp [List.filter_cons, h, ih]

theorem length_filter_add_not {α : Type} (p : α → Bool) :
    ∀ l : List α, (l.filter p).length + (l.filter (fun a => !(p a))).length = l.length := by
  intro l
  induction l with
  | nil => rfl
  | cons a t ih => by_cases h : p a <;> simp [List.filter_cons, h] <;> omega

/-- The flat list built by `_format_content_matches` is the in-order
filter-then-render of all line records. -/
theorem formattedLines_eq (hl : Bool) :
    ∀ cms : List MatchBlock,
      formattedLines hl cms = ((allLineRecords cms).filter (keepLine hl)).map (renderLine hl) := by
  intro cms
  induction cms with
  | nil => rfl
  | cons m t ih =>
    have hblock : (m.lines.getD []).flatMap (lineEntry hl)
        = ((m.lines.getD []).filter (keepLine hl)).map (renderLine hl) := by
      rw [List.flatMap_congr (fun li _ => lineEntry_eq hl li), flatMap_ite_singleton]
    simp only [formattedLines, allLineRecords, List.flatMap_cons, List.filter_append,
      List.map_append] at *
    rw [hblock, ih]

/-- C2: for every sequence of match blocks given to
`_format_content_matches`, the output lines are exactly the in-order
renderings `Line `+number+`: `+text of the line records that pass the two
filters (non-empty segment list, text not empty or all-whitespace after
trimming), blocks in order and lines within a block in order; hence no
output line comes from a filtered record, and the number of output lines
equals the number of input line records minus the number of filtered
ones.  The joined return value is the newline-join of that list. -/
theorem claim_C2 :
    ∀ (cms : List MatchBlock) (hl : Bool),
      formattedLines hl cms = ((allLineRecords cms).filter (keepLine hl)).map (renderLine hl)
    ∧ (formattedLines hl cms).length
        = (allLineRecords cms).length
          - ((allLineRecords cms).filter (fun li => !(keepLine hl li))).length
    ∧ format_content_matches cms hl
        = joinSep (chars "\n")
            (((allLineRecords cms).filter (keepLine hl)).map (renderLine hl)) := by
  intro cms hl
  refine ⟨formattedLines_eq hl cms, ?_, ?_⟩
  · rw [formattedLines_eq hl cms, List.length_map]
    have := length_filter_add_not (keepLine hl) (allLineRecords cms)
    omega
  · rw [format_content_matches, formattedLines_eq hl cms]

/-- C3: with `highlight=true` the rendered text of a line is the in-order
concatenation of its segment texts with exactly the segments flagged
`match=true` wrapped in a pair of `**` markers and the others left plain;
with `highlight=false` it is the plain concatenation of the segment texts
with no markers added, regardless of the flags; in particular the spec's
example line renders as `Line 3: def **foo**():` when highlighted, and as
`Line 3: def foo():` when not. -/
theorem claim_C3 :
    (∀ segs : List Segment,
      renderLineText true segs
        = (segs.map (fun s =>
            if s.matchFlag.getD false
            then chars "**" ++ segText s ++ chars "**"
            else segText s)).flatten)
  ∧ (∀ segs : List Segment, renderLineText false segs = (segs.map segText).flatten)
  ∧ format_content_matches
      [⟨some [⟨some 3, some [⟨some (chars "def "), none⟩, ⟨some (chars "foo"), some true⟩,
        ⟨some (chars "():"), none⟩]⟩]⟩] true
      = chars "Line 3: def **foo**():"
  ∧ format_content_matches
      [⟨some [⟨some 3, some [⟨some (chars "def "), none⟩, ⟨some (chars "foo"), some true⟩,
        ⟨some (chars "():"), none⟩]⟩]⟩] false
      = chars "Line 3: def foo():" := by
  refine ⟨?_, ?_, by decide, by decide⟩
  · intro segs
    rw [renderLineText_eq]
    exact congrArg List.flatten (List.map_congr_left fun s _ => by simp [formatSegment])
  · intro segs
    rw [renderLineText_eq]
    exact congrArg List.flatten (List.map_congr_left fun s _ => by simp [formatSegment])

theorem formatSegment_filled (hl : Bool) (s : Segment) :
    formatSegment hl (Segment.filled s) = formatSegment hl s := rfl

theorem renderLineText_filled (hl : Bool) (segs : List Segment) :
    renderLineText hl (segs.map Segment.filled) = renderLineText hl segs := by
  rw [renderLineText_eq, renderLineText_eq, List.map_map]
  exact congrArg List.flatten (List.map_congr_left fun s _ => formatSegment_filled hl s)

theorem lineEntry_filled (hl : Bool) (li : LineRecord) :
    lineEntry hl (LineRecord.filled li) = lineEntry hl li := by
  simp [lineEntry, LineRecord.filled, renderLineText_filled, List.map_eq_nil_iff]

theorem formattedLines_filled (hl : Bool) (cms : List MatchBlock) :
    formattedLines hl (cms.map MatchBlock.filled) = formattedLines hl cms := by
  rw [formattedLines, formattedLines, List.flatMap_map]
  refine List.flatMap_congr fun m _ => ?_
  show ((m.lines.getD []).map LineRecord.filled).flatMap (lineEntry hl)
      = (m.lines.getD []).flatMap (lineEntry hl)
  rw [List.flatMap_map]
  exact List.flatMap_congr fun li _ => lineEntry_filled hl li

theorem format_content_matches_filled (hl : Bool) (cms : List MatchBlock) :
    format_content_matches (cms.map MatchBlock.filled) hl = format_content_matches cms hl := by
  rw [format_content_matches, format_content_matches, formattedLines_filled]

theorem pathOf_filled (r : SearchResult) : pathOf (SearchResult.filled r) = pathOf r := rfl

theorem hrefOf_filled (r : SearchResult) : hrefOf (SearchResult.filled r) = hrefOf r := rfl

theorem fileNameOf_filled (r : SearchResult) :
    fileNameOf (SearchResult.filled r) = fileNameOf r := by
  rw [fileNameOf, fileNameOf, pathOf_filled, hrefOf_filled]

/-- C8: the three result-processing functions are total (they are plain
Lean functions, so no run can raise), every field read through
`dict.get(key, default)` behaves exactly as if a missing field had been
replaced by its default-empty fallback — filling the missing `file`,
`path`, `links`, `self`, `href`, `content_matches`, `lines`, `segments`,
`text` and `match` fields with those defaults leaves the outputs of
`get_file_names_with_matches`'s per-result step, `get_matches`'s
per-result step and `_format_content_matches` unchanged — and processing
continues through the surrounding results: a result anywhere in the list
contributes its own entries between those of its neighbours. -/
theorem claim_C8 :
    ∀ (r : SearchResult) (hl : Bool) (pre post : List SearchResult) (cms : List MatchBlock),
      fileNameEntryOf (SearchResult.filled r) = fileNameEntryOf r
    ∧ matchEntryOf (SearchResult.filled r) hl = matchEntryOf r hl
    ∧ format_content_matches (cms.map MatchBlock.filled) hl = format_content_matches cms hl
    ∧ fileNameEntries (pre ++ r :: post)
        = fileNameEntries pre ++ fileNameEntryOf r ++ fileNameEntries post
    ∧ matchEntries (pre ++ r :: post) hl
        = matchEntries pre hl ++ matchEntryOf r hl ++ matchEntries post hl := by
  intro r hl pre post cms
  refine ⟨?_, ?_, format_content_matches_filled hl cms, ?_, ?_⟩
  · rw [fileNameEntryOf, fileNameEntryOf, pathOf_filled, fileNameOf_filled]
    rfl
  · rw [matchEntryOf, matchEntryOf, fileNameOf_filled]
    show (if r.type = some (chars "code_search_result") then
        let fm := format_content_matches ((r.content_matches.getD []).map MatchBlock.filled) hl
        if fm ≠ [] then [(fileNameOf r, fm)] else []
      else []) = _
    rw [format_content_matches_filled]
  · simp [fileNameEntries, List.flatMap_append, List.flatMap_cons, List.append_assoc]
  · simp [matchEntries, List.flatMap_append, List.flatMap_cons, List.append_assoc]

/-- C10: for every `code_search_result`, `get_file_names_with_matches`
silently omits the result when its `file.path` is absent or empty, and
emits exactly one name (ignoring `content_matches` entirely) when the path
is non-empty; `get_matches` instead keys on the formatted match text: it
drops the result exactly when that text is empty, and otherwise emits
exactly one pair — even when the path is empty. -/
theorem claim_C10 :
    ∀ (r : SearchResult) (hl : Bool),
      r.type = some (chars "code_search_result") →
      (pathOf r = [] → fileNameEntryOf r = [])
    ∧ (pathOf r ≠ [] → fileNameEntryOf r = [fileNameOf r])
    ∧ (format_content_matches (r.content_matches.getD []) hl = [] → matchEntryOf r hl = [])
    ∧ (format_content_matches (r.content_matches.getD []) hl ≠ [] →
        matchEntryOf r hl
          = [(fileNameOf r, format_content_matches (r.content_matches.getD []) hl)]) := by
  intro r hl htype
  refine ⟨fun hp => ?_, fun hp => ?_, fun hm => ?_, fun hm => ?_⟩
  · simp [fileNameEntryOf, htype, hp]
  · simp [fileNameEntryOf, htype, hp]
  · simp [matchEntryOf, htype, hm]
  · simp [matchEntryOf, htype, hm]

/-- Witness for C10 at concrete inputs: a `code_search_result` with an
absent path yields no file name, one with path `a.py` yields exactly that
name, and one with no content matches yields no `get_matches` pair. -/
theorem claim_C10_witness :
    fileNameEntryOf noPathResult = []
  ∧ fileNameEntryOf pathOnlyResult = [chars "a.py"]
  ∧ matchEntryOf pathOnlyResult true = [] :=
  ⟨(claim_C10 noPathResult true (by decide)).1 (by decide),
    by
      have h := (claim_C10 pathOnlyResult true (by decide)).2.1 (by decide)
      rw [h]; decide,
    (claim_C10 pathOnlyResult true (by decide)).2.2.1 (by decide)⟩

/-- C7: for every `code_search_result`, both `get_file_names_with_matches`
and the first component of every `get_matches` pair use the
repository-qualified name repo+`/`+path exactly when the repository-name
extraction applied to `file.links.self.href` yields a non-empty name, and
the bare `file.path` otherwise; in particular the spec's example href
resolves to repository `demo` and yields `demo/src/foo.py`. -/
theorem claim_C7 :
    (∀ (r : SearchResult) (hl : Bool),
      r.type = some (chars "code_search_result") →
      (extractRepoName (hrefOf r) ≠ [] →
          (∀ s ∈ fileNameEntryOf r, s = extractRepoName (hrefOf r) ++ chars "/" ++ pathOf r)
        ∧ ∀ e ∈ matchEntryOf r hl, e.1 = extractRepoName (hrefOf r) ++ chars "/" ++ pathOf r)
    ∧ (extractRepoName (hrefOf r) = [] →
          (∀ s ∈ fileNameEntryOf r, s = pathOf r)
        ∧ ∀ e ∈ matchEntryOf r hl, e.1 = pathOf r))
  ∧ extractRepoName
      (chars "https://api.example.org/2.0/repositories/my-workspace/demo/src/abc123/src/foo.py")
      = chars "demo"
  ∧ fileNameEntryOf exampleResult = [chars "demo/src/foo.py"] := by
  refine ⟨?_, by decide, by decide⟩
  intro r hl htype
  constructor
  · intro hrepo
    constructor
    · intro s hs
      simp only [fileNameEntryOf, fileNameOf, htype, if_pos rfl, hrepo, if_pos] at hs
      split at hs <;> simp_all
    · intro e he
      simp only [matchEntryOf, fileNameOf, htype, if_pos rfl, hrepo, if_pos] at he
      split at he <;> simp_all
  · intro hrepo
    constructor
    · intro s hs
      simp only [fileNameEntryOf, fileNameOf, htype, if_pos rfl, hrepo] at hs
      split at hs <;> simp_all
    · intro e he
      simp only [matchEntryOf, fileNameOf, htype, if_pos rfl, hrepo] at he
      split at he <;> simp_all

/-- Witness for C7 at the spec's worked example: the example result's
emitted name coincides with repo+`/`+path. -/
theorem claim_C7_witness :
    ∀ s ∈ fileNameEntryOf exampleResult,
      s = extractRepoName (hrefOf exampleResult) ++ chars "/" ++ pathOf exampleResult :=
  ((claim_C7.1 exampleResult true (by decide)).1 (by decide)).1

/-- When the separator occurs nowhere in the string, the split worker
returns the single chunk consisting of everything seen so far. -/
theorem pySplitGo_of_not_occurs (sep : Str) :
    ∀ (fuel : Nat) (s acc : Str), occursIn sep s = false →
      pySplitGo sep fuel s acc = [acc.reverse ++ s] := by
  intro fuel
  induction fuel with
  | zero =>
    intro s acc _
    cases s with
    | nil => simp [pySplitGo]
    | cons c rest => simp [pySplitGo]
  | succ f ih =>
    intro s acc h
    cases s with
    | nil => simp [pySplitGo]
    | cons c rest =>
      rw [occursIn, Bool.or_eq_false_iff] at h
      rw [pySplitGo, if_neg (by simp [h.1]), ih rest (c :: acc) h.2]
      simp

/-- Splitting at a separator that does not occur yields the whole string
as the only chunk (the Python `"x" in s` test fails exactly here). -/
theorem pySplit_of_not_occurs (sep s : Str) (h : occursIn sep s = false) :
    pySplit sep s = [s] := by
  have hsep : sep ≠ [] := by
    intro hs
    subst hs
    cases s with
    | nil => simp [occursIn] at h
    | cons c rest => simp [occursIn, List.isPrefixOf] at h
  rw [pySplit, if_neg hsep, pySplitGo_of_not_occurs sep s.length s [] h]
  rfl

/-- C1 (amended): the extraction inspects only the portion of the URL
strictly between the first and second occurrences of the marker
`/repositories/` (or the end of the URL when the marker occurs once).
Whenever the marker occurs at most once, this agrees with the spec's
`resolveRepoName` algorithm — take everything after the first occurrence
of the marker, split it by `/`, and return the second segment when at
least two exist; in particular, if the only marker occurrence is followed
by at least two `/`-separated segments, the second one is returned.  A URL
not containing the marker yields the empty string, and the extraction is a
total function (it cannot raise). -/
theorem claim_C1 :
    (∀ url : Str, (pySplit MARKER url).length ≤ 2 →
      extractRepoName url = resolveRepoName url)
  ∧ (∀ url c0 c1 : Str, ∀ s1 s2 : Str, ∀ rest : List Str,
      pySplit MARKER url = [c0, c1] → pySplit (chars "/") c1 = s1 :: s2 :: rest →
      extractRepoName url = s2)
  ∧ (∀ url : Str, occursIn MARKER url = false → extractRepoName url = []) := by
  refine ⟨?_, ?_, ?_⟩
  · intro url hlen
    rw [extractRepoName, resolveRepoName]
    match hs : pySplit MARKER url with
    | [] => rfl
    | [c0] => rfl
    | [c0, c1] => rfl
    | c0 :: c1 :: c2 :: cs => rw [hs] at hlen; simp at hlen
  · intro url c0 c1 s1 s2 rest hsplit hslash
    rw [extractRepoName, hsplit]
    show (match pySplit (chars "/") c1 with
      | _ :: repo :: _ => repo
      | _ => []) = s2
    rw [hslash]
  · intro url h
    rw [extractRepoName, pySplit_of_not_occurs MARKER url h]

/-- Witness for C1 (amended) at concrete inputs: on a URL whose single
marker occurrence is followed by the segments `my-workspace, demo, ...`
the extraction agrees with the spec's resolver, returns the second
segment `demo`, and a URL without the marker yields the empty string. -/
theorem claim_C1_witness :
    extractRepoName (chars "https://h/2.0/repositories/my-workspace/demo/src/f.py")
      = resolveRepoName (chars "https://h/2.0/repositories/my-workspace/demo/src/f.py")
  ∧ extractRepoName (chars "https://h/2.0/repositories/my-workspace/demo/src/f.py")
      = chars "demo"
  ∧ extractRepoName (chars "https://h/2.0/no-marker/x") = [] :=
  ⟨claim_C1.1 (chars "https://h/2.0/repositories/my-workspace/demo/src/f.py") (by decide),
    claim_C1.2.1 (chars "https://h/2.0/repositories/my-workspace/demo/src/f.py")
      (chars "https://h/2.0") (chars "my-workspace/demo/src/f.py")
      (chars "my-workspace") (chars "demo") [chars "src", chars "f.py"]
      (by decide) (by decide),
    claim_C1.2.2 (chars "https://h/2.0/no-marker/x") (by decide)⟩

/-- Counterexample to C1 as stated: in the URL
`x/repositories/ws/repositories/a/b` the marker `/repositories/` is
followed (from its first occurrence) by the four `/`-separated segments
`ws, repositories, a, b` — so the claim requires the non-empty second
segment `repositories`, which is also what the spec's `resolveRepoName`
computes — yet the extraction returns the empty string, because Python's
`split("/repositories/")[1]` stops at the second marker occurrence and
sees the single segment `ws`. -/
theorem claim_C1_cex :
    occursIn MARKER (chars "x/repositories/ws/repositories/a/b") = true
  ∧ pySplit MARKER (chars "x/repositories/ws/repositories/a/b")
      = [chars "x", chars "ws", chars "a/b"]
  ∧ pySplit (chars "/") (chars "ws/repositories/a/b")
      = [chars "ws", chars "repositories", chars "a", chars "b"]
  ∧ resolveRepoName (chars "x/repositories/ws/repositories/a/b") = chars "repositories"
  ∧ extractRepoName (chars "x/repositories/ws/repositories/a/b") = []
  ∧ chars "repositories" ≠ [] := by
  refine ⟨by decide, by decide, by decide, by decide, by decide, by decide⟩

/-- Entries whose key differs from the one looked up do not affect a
cache lookup. -/
theorem cacheGet_append (ext c0 : CacheState) (now : Nat) (key : Nat × Str)
    (h : ∀ e ∈ ext, e.1 ≠ key) : cacheGet (ext ++ c0) now key = cacheGet c0 now key := by
  induction ext with
  | nil => rfl
  | cons e rest ih =>
    obtain ⟨k, r, expiry⟩ := e
    rw [List.cons_append, cacheGet, if_neg (h (k, r, expiry) (List.mem_cons_self _ _))]
    exact ih fun e2 he2 => h e2 (List.mem_cons_of_mem _ he2)

/-- Characterisation of the pagination loop: starting at `page` with a
budget of `remaining` further iterations, against a cache consisting of
the run's own fresh entries (all for earlier pages of the same query) in
front of an arbitrary initial state `c0`, the loop processes exactly the
pages `pagesRun` describes, accumulates the `values` arrays of the
per-page responses (cached when live in `c0`, fetched otherwise) in
order, and issues a network request exactly for the processed pages
missing from `c0`. -/
theorem searchLoop_char (fetch : Nat → Response) (now : Nat) (q : Str) (c0 : CacheState) :
    ∀ (remaining page : Nat) (acc : List SearchResult) (proc fetr : List Nat)
      (ext : CacheState),
      (∀ e ∈ ext, e.1.2 = q → e.1.1 < page) →
      (searchLoop fetch now q page remaining acc proc fetr (ext ++ c0)).results
        = acc ++ (pagesRun (respOf fetch c0 now q) page remaining).flatMap
            (fun p => (respOf fetch c0 now q p).values.getD [])
      ∧ (searchLoop fetch now q page remaining acc proc fetr (ext ++ c0)).processed
        = proc ++ pagesRun (respOf fetch c0 now q) page remaining
      ∧ (searchLoop fetch now q page remaining acc proc fetr (ext ++ c0)).fetched
        = fetr ++ (pagesRun (respOf fetch c0 now q) page remaining).filter
            (fun p => (cacheGet c0 now (p, q)).isNone) := by
  intro remaining
  induction remaining with
  | zero =>
    intro page acc proc fetr ext hext
    have hkey : ∀ e ∈ ext, e.1 ≠ (page, q) := by
      intro e he heq
      have h2 := hext e he
      rw [heq] at h2
      exact lt_irrefl page (h2 rfl)
    have hg := cacheGet_append ext c0 now (page, q) hkey
    simp only [searchLoop, hg]
    cases hc : cacheGet c0 now (page, q) <;>
      simp [pagesRun, respOf, hc]
  | succ rem ih =>
    intro page acc proc fetr ext hext
    have hkey : ∀ e ∈ ext, e.1 ≠ (page, q) := by
      intro e he heq
      have h2 := hext e he
      rw [heq] at h2
      exact lt_irrefl page (h2 rfl)
    have hg := cacheGet_append ext c0 now (page, q) hkey
    simp only [searchLoop, hg]
    cases hc : cacheGet c0 now (page, q) with
    | some r =>
      have hresp : respOf fetch c0 now q page = r := by rw [respOf, hc]
      simp only [Option.getD_some, Option.isSome_some, if_true, pagesRun, hresp]
      by_cases hn : r.next = none
      · simp [hn, hresp, hc]
      · rw [if_neg hn, if_neg hn]
        have step := ih (page + 1) (acc ++ r.values.getD []) (proc ++ [page]) fetr ext
          (fun e he hq => Nat.lt_succ_of_lt (hext e he hq))
        refine ⟨?_, ?_, ?_⟩
        · rw [step.1]; simp [hresp]
        · rw [step.2.1]; simp
        · rw [step.2.2]; simp [hc]
    | none =>
      have hresp : respOf fetch c0 now q page = fetch page := by rw [respOf, hc]
      simp only [Option.getD_none, Option.isSome_none, Bool.false_eq_true, if_false,
        pagesRun, hresp]
      by_cases hn : (fetch page).next = none
      · simp [hn, hresp, hc]
      · rw [if_neg hn, if_neg hn]
        have hext2 : ∀ e ∈ (((page, q), fetch page, now + EXPIRATION_TIME) :: ext),
            e.1.2 = q → e.1.1 < page + 1 := by
          intro e he hq
          rcases List.mem_cons.mp he with h | h
          · rw [h]; exact Nat.lt_succ_self page
          · exact Nat.lt_succ_of_lt (hext e h hq)
        have step := ih (page + 1) (acc ++ (fetch page).values.getD []) (proc ++ [page])
          (fetr ++ [page]) (((page, q), fetch page, now + EXPIRATION_TIME) :: ext) hext2
        have hset : cacheSet (ext ++ c0) now (page, q) (fetch page)
            = (((page, q), fetch page, now + EXPIRATION_TIME) :: ext) ++ c0 := rfl
        rw [hset]
        refine ⟨?_, ?_, ?_⟩
        · rw [step.1]; simp [hresp]
        · rw [step.2.1]; simp
        · rw [step.2.2]; simp [hc]

/-- Characterisation of a full `_get_all_search_results` run: the results
are the concatenated `values` arrays of the processed pages, the processed
pages are `pagesRun` from page 1, and the fetched pages are the processed
pages missing (or expired) in the initial cache. -/
theorem run_char (fetch : Nat → Response) (cache : CacheState) (now : Nat)
    (q : Str) (max_page : Nat) :
    (get_all_search_results fetch cache now q max_page).results
      = (pagesRun (respOf fetch cache now q) 1 (max_page - 1)).flatMap
          (fun p => (respOf fetch cache now q p).values.getD [])
  ∧ (get_all_search_results fetch cache now q max_page).processed
      = pagesRun (respOf fetch cache now q) 1 (max_page - 1)
  ∧ (get_all_search_results fetch cache now q max_page).fetched
      = (pagesRun (respOf fetch cache now q) 1 (max_page - 1)).filter
          (fun p => (cacheGet cache now (p, q)).isNone) := by
  have h := searchLoop_char fetch now q cache (max_page - 1) 1 [] [] [] []
    (fun e he => absurd he (List.not_mem_nil e))
  simpa [get_all_search_results] using h

theorem pagesRun_length (resp : Nat → Response) :
    ∀ (remaining page : Nat), (pagesRun resp page remaining).length ≤ remaining + 1 := by
  intro remaining
  induction remaining with
  | zero => intro page; simp [pagesRun]
  | succ r ih =>
    intro page
    rw [pagesRun]
    by_cases hn : (resp page).next = none
    · simp [hn]
    · rw [if_neg hn]
      have := ih (page + 1)
      simp only [List.length_cons]
      omega

theorem mem_pagesRun_bounds (resp : Nat → Response) :
    ∀ (remaining page p : Nat), p ∈ pagesRun resp page remaining →
      page ≤ p ∧ p ≤ page + remaining := by
  intro remaining
  induction remaining with
  | zero =>
    intro page p hp
    rw [pagesRun] at hp
    simp at hp
    omega
  | succ r ih =>
    intro page p hp
    rw [pagesRun] at hp
    by_cases hn : (resp page).next = none
    · rw [if_pos hn] at hp; simp at hp; omega
    · rw [if_neg hn] at hp
      rcases List.mem_cons.mp hp with h | h
      · omega
      · have := ih (page + 1) p h; omega

theorem self_mem_pagesRun (resp : Nat → Response) (remaining page : Nat) :
    page ∈ pagesRun resp page remaining := by
  cases remaining with
  | zero => simp [pagesRun]
  | succ r =>
    rw [pagesRun]
    by_cases hn : (resp page).next = none
    · simp [hn]
    · simp [hn]

/-- Once a processed page's response has no `next`, it is the last page
the run touches. -/
theorem pagesRun_stop (resp : Nat → Response) :
    ∀ (remaining page p : Nat), p ∈ pagesRun resp page remaining →
      (resp p).next = none → ∀ p2 ∈ pagesRun resp page remaining, p2 ≤ p := by
  intro remaining
  induction remaining with
  | zero =>
    intro page p hp _ p2 hp2
    rw [pagesRun] at hp hp2
    simp at hp hp2
    omega
  | succ r ih =>
    intro page p hp hnone p2 hp2
    rw [pagesRun] at hp hp2
    by_cases hn : (resp page).next = none
    · rw [if_pos hn] at hp hp2; simp at hp hp2; omega
    · rw [if_neg hn] at hp hp2
      rcases List.mem_cons.mp hp with h | h
      · rw [h] at hnone; exact absurd hnone hn
      · rcases List.mem_cons.mp hp2 with h2 | h2
        · have := mem_pagesRun_bounds resp r (page + 1) p h
          omega
        · exact ih (page + 1) p h hnone p2 h2

/-- While the budget allows it, a processed page whose response has a
`next` indicator is followed by the next page. -/
theorem pagesRun_cont (resp : Nat → Response) :
    ∀ (remaining page p : Nat), p ∈ pagesRun resp page remaining →
      (resp p).next ≠ none → p + 1 ≤ page + remaining →
      p + 1 ∈ pagesRun resp page remaining := by
  intro remaining
  induction remaining with
  | zero =>
    intro page p hp _ hle
    rw [pagesRun] at hp
    simp at hp
    exact absurd hle (by omega)
  | succ r ih =>
    intro page p hp hne hle
    rw [pagesRun] at hp ⊢
    by_cases hn : (resp page).next = none
    · rw [if_pos hn] at hp
      simp at hp
      rw [hp] at hne
      exact absurd hn hne
    · rw [if_neg hn] at hp
      rw [if_neg hn]
      rcases List.mem_cons.mp hp with h | h
      · rw [h]
        exact List.mem_cons_of_mem _ (self_mem_pagesRun resp r (page + 1))
      · refine List.mem_cons_of_mem _ (ih (page + 1) p h hne ?_)
        omega

/-- C4 (amended): after each processed page the accumulator of
`_get_all_search_results` receives every entry of that page's `values`
array — with no filter on the entry's `type` — appended in the order
returned by the service (cached pages contributing their cached
response), and `get_raw_matches` serialises exactly that accumulated
list.  The restriction to `code_search_result` entries happens only later,
inside `get_file_names_with_matches` and `get_matches`. -/
theorem claim_C4 :
    ∀ (fetch : Nat → Response) (cache : CacheState) (now : Nat) (q : Str) (max_page : Nat),
      (get_all_search_results fetch cache now q max_page).results
        = (pagesRun (respOf fetch cache now q) 1 (max_page - 1)).flatMap
            (fun p => (respOf fetch cache now q p).values.getD [])
    ∧ get_raw_matches fetch cache now q max_page
        = (get_all_search_results fetch cache now q max_page).results :=
  fun fetch cache now q max_page =>
    ⟨(run_char fetch cache now q max_page).1, rfl⟩

/-- Counterexample to C4 as stated: a single page whose `values` array
holds one entry of type `repository` — the accumulator (and hence the
list `get_raw_matches` serialises) contains that entry even though its
type is not `code_search_result`, because line 114 extends the
accumulator with the whole `values` array unfiltered. -/
theorem claim_C4_cex :
    (get_all_search_results (fun _ => ⟨some [otherTypeResult], none⟩) [] 0 [] MAX_PAGE).results
      = [otherTypeResult]
  ∧ get_raw_matches (fun _ => ⟨some [otherTypeResult], none⟩) [] 0 [] MAX_PAGE
      = [otherTypeResult]
  ∧ otherTypeResult.type ≠ some (chars "code_search_result") :=
  ⟨by decide, by decide, by decide⟩

/-- C5 (amended): for every `max_page = N ≥ 1` the run processes at most
`N` pages and issues at most `N` network requests, even when every
response announces a further page; hitting the cap is not an error — the
function still returns the partial accumulated results. -/
theorem claim_C5 :
    ∀ (fetch : Nat → Response) (cache : CacheState) (now : Nat) (q : Str) (max_page : Nat),
      1 ≤ max_page →
      (get_all_search_results fetch cache now q max_page).processed.length ≤ max_page
    ∧ (get_all_search_results fetch cache now q max_page).fetched.length ≤ max_page := by
  intro fetch cache now q max_page h1
  obtain ⟨-, hproc, hfetr⟩ := run_char fetch cache now q max_page
  constructor
  · rw [hproc]
    have := pagesRun_length (respOf fetch cache now q) (max_page - 1) 1
    omega
  · rw [hfetr]
    have h2 := List.length_filter_le (fun p => (cacheGet cache now (p, q)).isNone)
      (pagesRun (respOf fetch cache now q) 1 (max_page - 1))
    have := pagesRun_length (respOf fetch cache now q) (max_page - 1) 1
    omega

/-- Witness for C5 (amended): a service that always announces a next page,
capped at 3 pages. -/
theorem claim_C5_witness :
    (get_all_search_results alwaysNextFetch [] 0 [] 3).processed.length ≤ 3
  ∧ (get_all_search_results alwaysNextFetch [] 0 [] 3).fetched.length ≤ 3 :=
  claim_C5 alwaysNextFetch [] 0 [] 3 (by decide)

/-- Counterexample to C5 as stated: with `maxPages = 0` the code still
issues one page request, because the `while True` body runs before the
cap is first checked (lines 94-122) — so "at most N page requests for
every integer N" fails at N = 0. -/
theorem claim_C5_cex :
    (get_all_search_results alwaysNextFetch [] 0 [] 0).fetched = [1]
  ∧ ¬((get_all_search_results alwaysNextFetch [] 0 [] 0).fetched.length ≤ 0) :=
  ⟨by decide, by decide⟩

/-- C6: in every run, once a processed page's response (cached or
fetched) carries no `next` indicator the loop touches no later page, and
whenever a processed page's response carries a `next` indicator and the
incremented counter does not exceed the cap, the next page is processed;
in a run against an empty cache every processed page is a network
request, so the same two properties hold of the issued page requests. -/
theorem claim_C6 :
    ∀ (fetch : Nat → Response) (cache : CacheState) (now : Nat) (q : Str) (max_page : Nat),
      (∀ p, p ∈ (get_all_search_results fetch cache now q max_page).processed →
        (respOf fetch cache now q p).next = none →
        ∀ p2 ∈ (get_all_search_results fetch cache now q max_page).processed, p2 ≤ p)
    ∧ (∀ p, p ∈ (get_all_search_results fetch cache now q max_page).processed →
        (respOf fetch cache now q p).next ≠ none → p + 1 ≤ max_page →
        p + 1 ∈ (get_all_search_results fetch cache now q max_page).processed)
    ∧ (∀ p, p ∈ (get_all_search_results fetch [] now q max_page).fetched →
        (fetch p).next = none →
        ∀ p2 ∈ (get_all_search_results fetch [] now q max_page).fetched, p2 ≤ p)
    ∧ (∀ p, p ∈ (get_all_search_results fetch [] now q max_page).fetched →
        (fetch p).next ≠ none → p + 1 ≤ max_page →
        p + 1 ∈ (get_all_search_results fetch [] now q max_page).fetched) := by
  intro fetch cache now q max_page
  obtain ⟨-, hproc, -⟩ := run_char fetch cache now q max_page
  have hrespe : respOf fetch [] now q = fetch := rfl
  obtain ⟨-, -, hfetr⟩ := run_char fetch [] now q max_page
  rw [hrespe] at hfetr
  have hfilter : (pagesRun fetch 1 (max_page - 1)).filter
      (fun p => (cacheGet [] now (p, q)).isNone) = pagesRun fetch 1 (max_page - 1) :=
    List.filter_eq_self.mpr fun a _ => rfl
  rw [hfilter] at hfetr
  refine ⟨?_, ?_, ?_, ?_⟩
  · intro p hp hnone p2 hp2
    rw [hproc] at hp hp2
    exact pagesRun_stop (respOf fetch cache now q) (max_page - 1) 1 p hp hnone p2 hp2
  · intro p hp hne hle
    rw [hproc] at hp ⊢
    refine pagesRun_cont (respOf fetch cache now q) (max_page - 1) 1 p hp hne ?_
    have := mem_pagesRun_bounds (respOf fetch cache now q) (max_page - 1) 1 p hp
    omega
  · intro p hp hnone p2 hp2
    rw [hfetr] at hp hp2
    exact pagesRun_stop fetch (max_page - 1) 1 p hp hnone p2 hp2
  · intro p hp hne hle
    rw [hfetr] at hp ⊢
    refine pagesRun_cont fetch (max_page - 1) 1 p hp hne ?_
    have := mem_pagesRun_bounds fetch (max_page - 1) 1 p hp
    omega

/-- Witness for C6 at a concrete two-page service with cap 5: page 1
announces a next page, so page 2 is requested; page 2 has no next, so
every requested page is at most 2. -/
theorem claim_C6_witness :
    2 ∈ (get_all_search_results twoPageFetch [] 0 [] 5).fetched
  ∧ ∀ p2 ∈ (get_all_search_results twoPageFetch [] 0 [] 5).fetched, p2 ≤ 2 :=
  ⟨(claim_C6 twoPageFetch [] 0 [] 5).2.2.2 1 (by decide) (by decide) (by decide),
    (claim_C6 twoPageFetch [] 0 [] 5).2.2.1 2 (by decide) (by decide)⟩

/-- C9: a page whose `(page, query)` key has a live cache entry is served
from the cache and triggers no network request; a processed page missing
from the cache is fetched from the network (and, per the loop's
definition, stored with the configured `EXPIRATION_TIME`); storing a
response and reading it back no later than `EXPIRATION_TIME` seconds
after the store returns the identical response, while reading it back
after the expiration yields a miss (hence a fresh network call on the
next run). -/
theorem claim_C9 :
    (∀ (fetch : Nat → Response) (cache : CacheState) (now : Nat) (q : Str)
        (max_page p : Nat) (r : Response),
        cacheGet cache now (p, q) = some r →
        p ∉ (get_all_search_results fetch cache now q max_page).fetched)
  ∧ (∀ (fetch : Nat → Response) (cache : CacheState) (now : Nat) (q : Str)
        (max_page p : Nat),
        p ∈ (get_all_search_results fetch cache now q max_page).processed →
        cacheGet cache now (p, q) = none →
        p ∈ (get_all_search_results fetch cache now q max_page).fetched)
  ∧ (∀ (cache : CacheState) (now : Nat) (key : Nat × Str) (r : Response) (t : Nat),
        t ≤ now + EXPIRATION_TIME → cacheGet (cacheSet cache now key r) t key = some r)
  ∧ (∀ (cache : CacheState) (now : Nat) (key : Nat × Str) (r : Response) (t : Nat),
        now + EXPIRATION_TIME < t → cacheGet (cacheSet cache now key r) t key = none) := by
  refine ⟨?_, ?_, ?_, ?_⟩
  · intro fetch cache now q max_page p r hr hmem
    obtain ⟨-, -, hfetr⟩ := run_char fetch cache now q max_page
    rw [hfetr] at hmem
    have h2 := (List.mem_filter.mp hmem).2
    rw [hr] at h2
    simp at h2
  · intro fetch cache now q max_page p hproc hnone
    obtain ⟨-, hp2, hfetr⟩ := run_char fetch cache now q max_page
    rw [hp2] at hproc
    rw [hfetr]
    exact List.mem_filter.mpr ⟨hproc, by rw [hnone]; rfl⟩
  · intro cache now key r t ht
    simp [cacheGet, cacheSet, ht]
  · intro cache now key r t ht
    simp [cacheGet, cacheSet, show ¬ t ≤ now + EXPIRATION_TIME from by omega]

/-- Witness for C9 at concrete inputs: a pre-cached page 1 is not
fetched; with an empty cache the processed page 1 is fetched; a stored
response is still readable 3600 seconds later and gone 3601 seconds
later. -/
theorem claim_C9_witness :
    1 ∉ (get_all_search_results alwaysNextFetch
          [((1, []), (⟨some [], none⟩ : Response), 3600)] 0 [] 5).fetched
  ∧ 1 ∈ (get_all_search_results twoPageFetch [] 0 [] 5).fetched
  ∧ cacheGet (cacheSet [] 0 (2, []) (⟨some [], none⟩ : Response)) 3600 (2, [])
      = some (⟨some [], none⟩ : Response)
  ∧ cacheGet (cacheSet [] 0 (2, []) (⟨some [], none⟩ : Response)) 3601 (2, []) = none :=
  ⟨claim_C9.1 alwaysNextFetch [((1, []), (⟨some [], none⟩ : Response), 3600)] 0 [] 5 1
      (⟨some [], none⟩ : Response) (by decide),
    claim_C9.2.1 twoPageFetch [] 0 [] 5 1 (by decide) (by decide),
    claim_C9.2.2.1 [] 0 (2, []) (⟨some [], none⟩ : Response) 3600 (by decide),
    claim_C9.2.2.2 [] 0 (2, []) (⟨some [], none⟩ : Response) 3601 (by decide)⟩
